import Mathlib

/- Verification of the reading-alignment algorithm of src/reading.py
   (MecabController.reading).  Python strings are modelled as `List Char`
   (sequences of Unicode code points); Python exceptions are modelled by
   `Option` (`none` = an exception escaped); the kakasi subprocess, an
   external collaborator, is modelled from the spec as `toHiragana`. -/

namespace KaitoReading

abbrev Str := List Char

/-- Code points Python's `str.strip` treats as whitespace. -/
def wsCodes : List Nat :=
  [0x9, 0xA, 0xB, 0xC, 0xD, 0x1C, 0x1D, 0x1E, 0x1F, 0x20, 0x85, 0xA0,
   0x1680, 0x2000, 0x2001, 0x2002, 0x2003, 0x2004, 0x2005, 0x2006, 0x2007,
   0x2008, 0x2009, 0x200A, 0x2028, 0x2029, 0x202F, 0x205F, 0x3000]

/-- Python `str.isspace` on a single character. -/
def pyIsSpace (c : Char) : Bool := wsCodes.contains c.toNat

/-- Python `s.strip()`: drop whitespace from both ends. -/
def pyStrip (s : Str) : Str :=
  ((s.dropWhile pyIsSpace).reverse.dropWhile pyIsSpace).reverse

/-- Membership of a character in the class `[A-Za-z0-9]`, by code point. -/
def isAlnumCh (c : Char) : Bool :=
  (decide (0x41 ≤ c.toNat) && decide (c.toNat ≤ 0x5A)) ||
  (decide (0x61 ≤ c.toNat) && decide (c.toNat ≤ 0x7A)) ||
  (decide (0x30 ≤ c.toNat) && decide (c.toNat ≤ 0x39))

/-- Model of `re.match("^[A-Za-z0-9]+$", s)` succeeding (for the
newline-free strings the analyzer emits, one line at a time). -/
def fullAlnum (s : Str) : Bool := !s.isEmpty && s.all isAlnumCh

/-- Python `s[-i]` (for `i ≥ 1`): `none` models an `IndexError`. -/
def negGet (s : Str) (i : Nat) : Option Char :=
  if 1 ≤ i ∧ i ≤ s.length then some (s.getD (s.length - i) ' ') else none

/-- Python `s[i]` (for `i ≥ 0`): `none` models an `IndexError`. -/
def posGet (s : Str) (i : Nat) : Option Char :=
  if i < s.length then some (s.getD i ' ') else none

/-- Loop body of `for i in range(1, len(kanji)): if kanji[-i] != reading[-i]:
break; placeR = i` from src/reading.py, run over the listed indices,
threading the accumulator `placeR`. -/
def scanR (k r : Str) : List Nat → Nat → Option Nat
  | [], acc => some acc
  | i :: rest, acc =>
    match negGet k i, negGet r i with
    | some a, some b => if a = b then scanR k r rest i else some acc
    | _, _ => none

/-- Value of `placeR` after the suffix-trimming loop (`none` = IndexError). -/
def placeR (k r : Str) : Option Nat := scanR k r (List.range' 1 (k.length - 1)) 0

/-- Loop body of `for i in range(0, len(kanji) - 1): if kanji[i] != reading[i]:
break; placeL = i + 1` from src/reading.py. -/
def scanL (k r : Str) : List Nat → Nat → Option Nat
  | [], acc => some acc
  | i :: rest, acc =>
    match posGet k i, posGet r i with
    | some a, some b => if a = b then scanL k r rest (i + 1) else some acc
    | _, _ => none

/-- Value of `placeL` after the prefix-trimming loop (`none` = IndexError). -/
def placeL (k r : Str) : Option Nat := scanL k r (List.range' 0 (k.length - 1)) 0

/-- Boolean test that `pat` is a leading segment of `s`. -/
def leadsWith : Str → Str → Bool
  | [], _ => true
  | _ :: _, [] => false
  | a :: as, b :: bs => decide (a = b) && leadsWith as bs

/-- Python's substring operator `pat in s` on strings. -/
def hasSub (pat : Str) : Str → Bool
  | [] => pat.isEmpty
  | c :: rest => leadsWith pat (c :: rest) || hasSub pat rest

/-- Characters of the numeral test string of src/reading.py line 146
(`"一二三四五六七八九十０１２３４５６７８９"`). -/
def numChars : Str := ("一二三四五六七八九十０１２３４５６７８９").data

/-- Modelled from the spec: the katakana-to-hiragana normalization capability
provided by the external kakasi subprocess (spec sections 4.1, 9:
`toHiragana(text) -> string`).  Katakana code points are mapped to the
corresponding hiragana; every other character is left unchanged. -/
def toHiragana (s : Str) : Str :=
  s.map (fun c =>
    if 0x30A1 ≤ c.toNat ∧ c.toNat ≤ 0x30F6 then Char.ofNat (c.toNat - 0x60) else c)

/-- Emission of the four bracketing branches of src/reading.py lines 161-184,
given the kanji, the converted reading and the two trim lengths. -/
def emit (kanji rr : Str) (pL pR : Nat) : Str :=
  if pL = 0 then
    if pR = 0 then
      ' ' :: (kanji ++ '[' :: (rr ++ [']']))
    else
      ' ' :: (kanji.take (kanji.length - pR) ++
        '[' :: (rr.take (rr.length - pR) ++ ']' :: rr.drop (rr.length - pR)))
  else
    if pR = 0 then
      rr.take pL ++ ' ' :: (kanji.drop pL ++ '[' :: (rr.drop pL ++ [']']))
    else
      rr.take pL ++ ' ' :: ((kanji.take (kanji.length - pR)).drop pL ++
        '[' :: ((rr.take (rr.length - pR)).drop pL ++
          ']' :: rr.drop (rr.length - pR)))

/-- Per-token processing of src/reading.py lines 130-184: the passthrough
branches, the numeral substring test, then the two trimming scans and the
bracketed emission.  `none` models an IndexError escaping the loops. -/
def processToken (toH : Str → Str) (kanji rd : Str) : Option Str :=
  if kanji = rd ∨ rd = [] then some kanji
  else if kanji = toH rd then some kanji
  else if toH rd = kanji then some kanji
  else if hasSub kanji numChars then some kanji
  else
    match placeR kanji (toH rd), placeL kanji (toH rd) with
    | some pR, some pL => some (emit kanji (toH rd) pL pR)
    | _, _ => none

/-- Emitted segments for a whole token list, propagating exceptions. -/
def buildEntries (toH : Str → Str) : List (Str × Str) → Option (List Str)
  | [] => some []
  | t :: ts =>
    match processToken toH t.1 t.2 with
    | none => none
    | some e =>
      match buildEntries toH ts with
      | none => none
      | some es => some (e :: es)

/-- Spacing pass of src/reading.py lines 185-189: append one space to an
entry whenever the following entry is a nonempty `[A-Za-z0-9]` run. -/
def spacePass : List Str → Str
  | [] => []
  | [s] => s
  | s :: t :: rest => s ++ (if fullAlnum t then [' '] else []) ++ spacePass (t :: rest)

/-- Python `fin.replace("< br>", "<br>")`: left-to-right, non-overlapping. -/
def collapseBr : Str → Str
  | [] => []
  | '<' :: ' ' :: 'b' :: 'r' :: '>' :: rest => '<' :: 'b' :: 'r' :: '>' :: collapseBr rest
  | c :: rest => c :: collapseBr rest

/-- Final assembly of src/reading.py line 190:
`fin.strip().replace("< br>", "<br>")` applied to the spaced entries. -/
def finish (out : List Str) : Str := collapseBr (pyStrip (spacePass out))

/-- Token-level alignment: `MecabController.reading` from the point where the
`(surface, reading)` pairs are in hand (the `align` contract of spec
section 4.1), with the kakasi collaborator instantiated by `toHiragana`. -/
def align (ts : List (Str × Str)) : Option Str :=
  match buildEntries toHiragana ts with
  | none => none
  | some out => some (finish out)

/-- Largest `j < bound` with `p j`, searching downward. -/
def findLastIdx (p : Nat → Bool) : Nat → Option Nat
  | 0 => none
  | n + 1 => if p n then some n else findLastIdx p n

/-- Model of `re.match(r"(.+)\[(.*)\]", node)` with Python's greedy
backtracking, for newline-free nodes: group 1 is the longest nonempty prefix
ending right before a `[` that still has some `]` after it, group 2 runs from
that `[` to the last `]` of the node. -/
def parseNode (s : Str) : Option (Str × Str) :=
  match findLastIdx (fun j => decide (s.getD j ' ' = ']')) s.length with
  | none => none
  | some j =>
    match findLastIdx (fun i => decide (1 ≤ i) && decide (s.getD i ' ' = '[')) j with
    | none => none
    | some i => some (s.take i, (s.take j).drop (i + 1))

/-- Node loop of src/reading.py lines 117-184: stop at the first empty node,
return `""` (`some none` stage) when a node fails to parse, propagate
exceptions (`none`), otherwise collect the emitted segments. -/
def buildOut (toH : Str → Str) : List Str → Option (Option (List Str))
  | [] => some (some [])
  | n :: rest =>
    if n = [] then some (some [])
    else
      match parseNode n with
      | none => some none
      | some kr =>
        match processToken toH kr.1 kr.2 with
        | none => none
        | some e =>
          match buildOut toH rest with
          | none => none
          | some none => some none
          | some (some es) => some (some (e :: es))

/-- Node-level `MecabController.reading` on the space-separated node list of
one analyzer output line. -/
def alignNodes (toH : Str → Str) (ns : List Str) : Option Str :=
  match buildOut toH ns with
  | none => none
  | some none => some []
  | some (some out) => some (finish out)

/-- Length of the longest common leading segment of two strings. -/
def ccp : Str → Str → Nat
  | a :: as, b :: bs => if a = b then ccp as bs + 1 else 0
  | _, _ => 0

/-- Length of the longest common prefix (spec section 4.1, step 2). -/
def lcpLen (k r : Str) : Nat := ccp k r

/-- Length of the longest common suffix (spec section 4.1, step 2). -/
def lcsLen (k r : Str) : Nat := ccp k.reverse r.reverse

/-- Characters of the pattern `"< br>"` of the final cleanup. -/
def brPat : Str := '<' :: ' ' :: 'b' :: 'r' :: '>' :: []

/- ### Basic lemmas about the character classes and string helpers -/

lemma isAlnum_not_space {c : Char} (h : isAlnumCh c = true) : pyIsSpace c = false := by
  unfold isAlnumCh at h
  unfold pyIsSpace wsCodes
  simp only [Bool.or_eq_true, Bool.and_eq_true, decide_eq_true_eq] at h
  simp only [List.contains_cons, List.contains_nil, Bool.or_eq_false_iff, beq_eq_false_iff_ne,
    ne_eq, and_true]
  omega

lemma leadsWith_iff (pat : Str) : ∀ s : Str, leadsWith pat s = true ↔ ∃ t, s = pat ++ t := by
  induction pat with
  | nil => intro s; simp [leadsWith]
  | cons a as ih =>
    intro s
    cases s with
    | nil => simp [leadsWith]
    | cons b bs =>
      simp only [leadsWith, Bool.and_eq_true, decide_eq_true_eq, ih, List.cons_append]
      constructor
      · rintro ⟨rfl, t, rfl⟩; exact ⟨t, rfl⟩
      · rintro ⟨t, ht⟩
        injection ht with h1 h2
        exact ⟨h1.symm, t, h2⟩

lemma hasSub_iff (pat : Str) : ∀ s : Str, hasSub pat s = true ↔ ∃ u v, s = u ++ pat ++ v := by
  intro s
  induction s with
  | nil =>
    simp only [hasSub, List.isEmpty_iff]
    constructor
    · rintro rfl; exact ⟨[], [], rfl⟩
    · rintro ⟨u, v, h⟩
      rcases List.append_eq_nil.1 h.symm with ⟨h1, h2⟩
      exact (List.append_eq_nil.1 h1).2
  | cons c rest ih =>
    simp only [hasSub, Bool.or_eq_true, leadsWith_iff, ih]
    constructor
    · rintro (⟨t, ht⟩ | ⟨u, v, hv⟩)
      · exact ⟨[], t, by simpa using ht⟩
      · exact ⟨c :: u, v, by simp [hv]⟩
    · rintro ⟨u, v, huv⟩
      cases u with
      | nil => exact Or.inl ⟨v, by simpa using huv⟩
      | cons x xs =>
        injection huv with h1 h2
        exact Or.inr ⟨xs, v, by simpa using h2⟩

lemma collapseBr_of_not_sub (s : Str) (h : hasSub brPat s = false) : collapseBr s = s := by
  induction s using collapseBr.induct with
  | case1 => rfl
  | case2 rest ih => simp [hasSub, leadsWith, brPat] at h
  | case3 c rest hno ih =>
    rw [collapseBr.eq_3 _ _ hno]
    have h2 : hasSub brPat rest = false := by
      simp only [hasSub, Bool.or_eq_false_iff] at h
      exact h.2
    rw [ih h2]

lemma mem_collapseBr {c : Char} (hc : c ≠ ' ') : ∀ s : Str, c ∈ s → c ∈ collapseBr s := by
  intro s
  induction s using collapseBr.induct with
  | case1 => simp
  | case2 rest ih =>
    intro hmem
    rw [collapseBr.eq_2]
    simp only [List.mem_cons] at hmem ⊢
    rcases hmem with rfl | rfl | rfl | rfl | rfl | h
    · exact Or.inl rfl
    · exact absurd rfl hc
    · exact Or.inr (Or.inl rfl)
    · exact Or.inr (Or.inr (Or.inl rfl))
    · exact Or.inr (Or.inr (Or.inr (Or.inl rfl)))
    · exact Or.inr (Or.inr (Or.inr (Or.inr (ih h))))
  | case3 d rest hno ih =>
    intro hmem
    rw [collapseBr.eq_3 _ _ hno]
    simp only [List.mem_cons] at hmem ⊢
    rcases hmem with rfl | h
    · exact Or.inl rfl
    · exact Or.inr (ih h)

lemma no_space_no_brPat (s : Str) (h : ∀ c ∈ s, pyIsSpace c = false) :
    hasSub brPat s = false := by
  by_contra hcon
  rcases hasSub_iff brPat s |>.1 (by revert hcon; cases hasSub brPat s <;> simp) with ⟨u, v, rfl⟩
  have : (' ' : Char) ∈ u ++ brPat ++ v := by simp [brPat]
  have := h _ this
  simp [pyIsSpace, wsCodes] at this

lemma dropWhile_append_or (p : Char → Bool) :
    ∀ A rest : Str, (∃ A1, (A ++ rest).dropWhile p = A1 ++ rest) ∨
      (A ++ rest).dropWhile p = rest.dropWhile p := by
  intro A
  induction A with
  | nil => intro rest; exact Or.inr (by simp)
  | cons a A ih =>
    intro rest
    by_cases hp : p a
    · simpa [List.dropWhile_cons, hp] using ih rest
    · exact Or.inl ⟨a :: A, by simp [List.dropWhile_cons, hp]⟩

lemma dropWhile_of_head (p : Char → Bool) (s : Str) (c : Char) (hc : s.head? = some c)
    (h : p c = false) : s.dropWhile p = s := by
  cases s with
  | nil => simp at hc
  | cons a t =>
    injection hc with hc
    subst hc
    simp [List.dropWhile_cons, h]

lemma mem_dropWhile (p : Char → Bool) {c : Char} (hc : p c = false) :
    ∀ s : Str, c ∈ s → c ∈ s.dropWhile p := by
  intro s
  induction s with
  | nil => simp
  | cons a t ih =>
    intro hmem
    by_cases hp : p a
    · rcases List.mem_cons.1 hmem with rfl | h
      · rw [hp] at hc; cases hc
      · simpa [List.dropWhile_cons, hp] using ih h
    · simpa [List.dropWhile_cons, hp] using hmem

lemma mem_pyStrip {c : Char} (hc : pyIsSpace c = false) {s : Str} (h : c ∈ s) :
    c ∈ pyStrip s := by
  unfold pyStrip
  rw [List.mem_reverse]
  exact mem_dropWhile _ hc _ (by rw [List.mem_reverse]; exact mem_dropWhile _ hc _ h)

lemma pyStrip_of_no_ws (s : Str) (h : ∀ c ∈ s, pyIsSpace c = false) : pyStrip s = s := by
  unfold pyStrip
  cases s with
  | nil => rfl
  | cons a t =>
    have h1 : (a :: t).dropWhile pyIsSpace = a :: t :=
      dropWhile_of_head pyIsSpace (a :: t) a rfl (h a (by simp))
    rw [h1]
    have h2 : (a :: t).reverse.dropWhile pyIsSpace = (a :: t).reverse := by
      refine dropWhile_of_head pyIsSpace (a :: t).reverse ((a :: t).getLast (by simp)) ?_
        (h _ (List.getLast_mem _))
      rw [List.head?_reverse]
      exact List.getLast?_eq_getLast _ _
    rw [h2, List.reverse_reverse]

lemma strip_mid (A mid B : Str) (c1 c2 : Char) (h1 : mid.head? = some c1)
    (hw1 : pyIsSpace c1 = false) (h2 : mid.getLast? = some c2) (hw2 : pyIsSpace c2 = false) :
    ∃ A1 B1, pyStrip (A ++ (mid ++ B)) = A1 ++ (mid ++ B1) := by
  unfold pyStrip
  have hfront : ∃ A1, (A ++ (mid ++ B)).dropWhile pyIsSpace = A1 ++ (mid ++ B) := by
    rcases dropWhile_append_or pyIsSpace A (mid ++ B) with ⟨A1, hA⟩ | hA
    · exact ⟨A1, hA⟩
    · refine ⟨[], ?_⟩
      rw [hA, List.nil_append]
      refine dropWhile_of_head _ _ c1 ?_ hw1
      rw [List.head?_append, h1]
      rfl
  obtain ⟨A1, hA⟩ := hfront
  rw [hA]
  have hrev : (A1 ++ (mid ++ B)).reverse = B.reverse ++ (mid.reverse ++ A1.reverse) := by
    simp [List.reverse_append, List.append_assoc]
  rw [hrev]
  have hback : ∃ B1, (B.reverse ++ (mid.reverse ++ A1.reverse)).dropWhile pyIsSpace =
      B1 ++ (mid.reverse ++ A1.reverse) := by
    rcases dropWhile_append_or pyIsSpace B.reverse (mid.reverse ++ A1.reverse) with
      ⟨B1, hB⟩ | hB
    · exact ⟨B1, hB⟩
    · refine ⟨[], ?_⟩
      rw [hB, List.nil_append]
      refine dropWhile_of_head _ _ c2 ?_ hw2
      rw [List.head?_append, List.head?_reverse, h2]
      rfl
  obtain ⟨B1, hB⟩ := hback
  rw [hB]
  refine ⟨A1, B1.reverse, ?_⟩
  simp [List.reverse_append, List.append_assoc]

lemma spacePass_cons (s t : Str) (rest : List Str) :
    spacePass (s :: t :: rest) = s ++ ((if fullAlnum t then [' '] else []) ++ spacePass (t :: rest)) := by
  simp [spacePass]

lemma mem_spacePass : ∀ (out : List Str) (e : Str), e ∈ out → ∀ c ∈ e, c ∈ spacePass out := by
  intro out
  induction out with
  | nil => simp
  | cons s rest ih =>
    intro e he c hc
    cases rest with
    | nil =>
      rcases List.mem_cons.1 he with rfl | h
      · simpa [spacePass] using hc
      · simp at h
    | cons t rest2 =>
      rw [spacePass_cons]
      rcases List.mem_cons.1 he with rfl | h
      · exact List.mem_append_left _ hc
      · exact List.mem_append_right _ (List.mem_append_right _ (ih e h c hc))

lemma spacePass_join : ∀ l : List Str, (∀ e ∈ l.tail, fullAlnum e = false) →
    spacePass l = l.flatten := by
  intro l
  induction l with
  | nil => intro _; rfl
  | cons s rest ih =>
    intro h
    cases rest with
    | nil => simp [spacePass]
    | cons t rest2 =>
      rw [spacePass_cons]
      rw [h t (by simp)]
      rw [ih (fun e he => h e (List.mem_cons_of_mem _ he))]
      simp

lemma spacePass_split (x : Str) (rest : List Str) :
    ∀ l1 : List Str, ∃ A, spacePass (l1 ++ x :: rest) = A ++ spacePass (x :: rest) := by
  intro l1
  induction l1 with
  | nil => exact ⟨[], rfl⟩
  | cons a l1 ih =>
    obtain ⟨A, hA⟩ := ih
    cases l1 with
    | nil =>
      refine ⟨a ++ (if fullAlnum x then [' '] else []), ?_⟩
      show spacePass (a :: x :: rest) = _
      simp [spacePass_cons, List.append_assoc]
    | cons b l1' =>
      refine ⟨a ++ ((if fullAlnum b then [' '] else []) ++ A), ?_⟩
      rw [List.cons_append, List.cons_append, spacePass_cons, ← List.cons_append, hA]
      simp [List.append_assoc]

lemma spacePass_head (x : Str) (rest : List Str) : ∃ B, spacePass (x :: rest) = x ++ B := by
  cases rest with
  | nil => exact ⟨[], (List.append_nil x).symm⟩
  | cons t r => exact ⟨_, spacePass_cons x t r⟩

/- ### Longest-common-segment lemmas -/

lemma ccp_nil_left (b : Str) : ccp [] b = 0 := by cases b <;> rfl

lemma ccp_nil_right (a : Str) : ccp a [] = 0 := by cases a <;> rfl

lemma ccp_cons (x y : Char) (as bs : Str) :
    ccp (x :: as) (y :: bs) = if x = y then ccp as bs + 1 else 0 := rfl

lemma ccp_ge_iff : ∀ (t : Nat) (a b : Str),
    t ≤ ccp a b ↔ t ≤ a.length ∧ t ≤ b.length ∧ a.take t = b.take t := by
  intro t
  induction t with
  | zero => intro a b; simp
  | succ t ih =>
    intro a b
    cases a with
    | nil => simp [ccp_nil_left]
    | cons x as =>
      cases b with
      | nil => simp [ccp_nil_right]
      | cons y bs =>
        rw [ccp_cons]
        by_cases hxy : x = y
        · subst hxy
          rw [if_pos rfl]
          simp only [Nat.succ_le_succ_iff, List.length_cons, List.take_succ_cons,
            List.cons.injEq, true_and]
          exact ih as bs
        · rw [if_neg hxy]
          constructor
          · intro h; exact absurd h (by omega)
          · rintro ⟨h1, h2, h3⟩
            rw [List.take_succ_cons, List.take_succ_cons] at h3
            injection h3 with h4 _
            exact (hxy h4).elim

lemma take_reverse_eq (l : Str) (t : Nat) (ht : t ≤ l.length) :
    l.reverse.take t = (l.drop (l.length - t)).reverse := by
  conv_lhs => rw [← List.take_append_drop (l.length - t) l]
  rw [List.reverse_append, List.take_left']
  simp only [List.length_reverse, List.length_drop]
  omega

lemma lcsLen_ge_iff (k r : Str) (t : Nat) :
    t ≤ lcsLen k r ↔ t ≤ k.length ∧ t ≤ r.length ∧
      k.drop (k.length - t) = r.drop (r.length - t) := by
  unfold lcsLen
  rw [ccp_ge_iff]
  simp only [List.length_reverse]
  constructor
  · rintro ⟨h1, h2, h3⟩
    refine ⟨h1, h2, ?_⟩
    rw [take_reverse_eq _ _ h1, take_reverse_eq _ _ h2] at h3
    exact List.reverse_injective h3
  · rintro ⟨h1, h2, h3⟩
    refine ⟨h1, h2, ?_⟩
    rw [take_reverse_eq _ _ h1, take_reverse_eq _ _ h2, h3]

lemma take_eq_imp_getD (a b : Str) (t p : Nat) (hp : p < t) (h : a.take t = b.take t) :
    a.getD p ' ' = b.getD p ' ' := by
  have h2 : (a.take t)[p]? = (b.take t)[p]? := by rw [h]
  rw [List.getElem?_take, List.getElem?_take, if_pos hp, if_pos hp] at h2
  rw [List.getD_eq_getElem?_getD, List.getD_eq_getElem?_getD, h2]

/- ### Soundness and totality of the two trimming scans -/

lemma negGet_eq (s : Str) (i : Nat) (h1 : 1 ≤ i) (h2 : i ≤ s.length) :
    negGet s i = some (s.getD (s.length - i) ' ') := by
  unfold negGet
  rw [if_pos ⟨h1, h2⟩]

lemma negGet_none (s : Str) (i : Nat) (h : s.length < i) : negGet s i = none := by
  unfold negGet
  rw [if_neg (by omega)]

lemma posGet_eq (s : Str) (i : Nat) (h : i < s.length) :
    posGet s i = some (s.getD i ' ') := by
  unfold posGet
  rw [if_pos h]

lemma posGet_none (s : Str) (i : Nat) (h : s.length ≤ i) : posGet s i = none := by
  unfold posGet
  rw [if_neg (by omega)]

lemma scanR_sound (k r : Str) :
    ∀ c acc p : Nat, acc + 1 + c = max k.length 1 → acc ≤ r.length →
      k.drop (k.length - acc) = r.drop (r.length - acc) →
      scanR k r (List.range' (acc + 1) c) acc = some p →
      p ≤ k.length - 1 ∧ p ≤ r.length ∧
        k.drop (k.length - p) = r.drop (r.length - p) ∧
        (k.length ≤ p + 1 ∨
          (p + 1 ≤ k.length ∧ p + 1 ≤ r.length ∧
            k.getD (k.length - (p + 1)) ' ' ≠ r.getD (r.length - (p + 1)) ' ')) := by
  intro c
  induction c with
  | zero =>
    intro acc p hinv hm hdrop hs
    have hp : p = acc := by
      have : scanR k r [] acc = some acc := rfl
      rw [show List.range' (acc + 1) 0 = ([] : List Nat) from rfl] at hs
      rw [this] at hs
      exact (Option.some_inj.1 hs).symm
    subst hp
    exact ⟨by omega, hm, hdrop, Or.inl (by omega)⟩
  | succ c ih =>
    intro acc p hinv hm hdrop hs
    rw [show List.range' (acc + 1) (c + 1) = (acc + 1) :: List.range' (acc + 2) c from rfl] at hs
    have hkn : acc + 1 ≤ k.length - 1 := by omega
    have hkn2 : acc + 1 ≤ k.length := by omega
    rw [show scanR k r ((acc + 1) :: List.range' (acc + 2) c) acc =
        (match negGet k (acc + 1), negGet r (acc + 1) with
         | some a, some b =>
             if a = b then scanR k r (List.range' (acc + 2) c) (acc + 1) else some acc
         | _, _ => none) from rfl] at hs
    by_cases hrm : acc + 1 ≤ r.length
    · rw [negGet_eq k (acc + 1) (by omega) hkn2, negGet_eq r (acc + 1) (by omega) hrm] at hs
      simp only at hs
      by_cases hab : k.getD (k.length - (acc + 1)) ' ' = r.getD (r.length - (acc + 1)) ' '
      · rw [if_pos hab] at hs
        refine ih (acc + 1) p (by omega) hrm ?_ hs
        have hkd : k.drop (k.length - (acc + 1)) =
            k[k.length - (acc + 1)] :: k.drop (k.length - acc) := by
          rw [List.drop_eq_getElem_cons (by omega)]
          congr 2
          omega
        have hrd : r.drop (r.length - (acc + 1)) =
            r[r.length - (acc + 1)] :: r.drop (r.length - acc) := by
          rw [List.drop_eq_getElem_cons (by omega)]
          congr 2
          omega
        rw [hkd, hrd, hdrop]
        congr 1
        rw [List.getD_eq_getElem k ' ' (by omega), List.getD_eq_getElem r ' ' (by omega)] at hab
        exact hab
      · rw [if_neg hab] at hs
        have hp : p = acc := (Option.some_inj.1 hs).symm
        subst hp
        exact ⟨by omega, hm, hdrop, Or.inr ⟨by omega, hrm, hab⟩⟩
    · rw [negGet_none r (acc + 1) (by omega)] at hs
      rw [negGet_eq k (acc + 1) (by omega) hkn2] at hs
      simp at hs

lemma scanL_sound (k r : Str) :
    ∀ c acc p : Nat, acc + c = k.length - 1 → acc ≤ r.length →
      k.take acc = r.take acc →
      scanL k r (List.range' acc c) acc = some p →
      p ≤ k.length - 1 ∧ p ≤ r.length ∧ k.take p = r.take p ∧
        (k.length - 1 ≤ p ∨
          (p < k.length ∧ p < r.length ∧ k.getD p ' ' ≠ r.getD p ' ')) := by
  intro c
  induction c with
  | zero =>
    intro acc p hinv hm htake hs
    have hp : p = acc := by
      rw [show List.range' acc 0 = ([] : List Nat) from rfl] at hs
      exact (Option.some_inj.1 hs).symm
    subst hp
    exact ⟨by omega, hm, htake, Or.inl (by omega)⟩
  | succ c ih =>
    intro acc p hinv hm htake hs
    rw [show List.range' acc (c + 1) = acc :: List.range' (acc + 1) c from rfl] at hs
    have hkn : acc < k.length - 1 := by omega
    have hkn2 : acc < k.length := by omega
    rw [show scanL k r (acc :: List.range' (acc + 1) c) acc =
        (match posGet k acc, posGet r acc with
         | some a, some b =>
             if a = b then scanL k r (List.range' (acc + 1) c) (acc + 1) else some acc
         | _, _ => none) from rfl] at hs
    by_cases hrm : acc < r.length
    · rw [posGet_eq k acc hkn2, posGet_eq r acc hrm] at hs
      simp only at hs
      by_cases hab : k.getD acc ' ' = r.getD acc ' '
      · rw [if_pos hab] at hs
        refine ih (acc + 1) p (by omega) (by omega) ?_ hs
        rw [List.take_succ, List.take_succ, htake]
        congr 1
        rw [List.getElem?_eq_getElem hkn2, List.getElem?_eq_getElem hrm]
        rw [List.getD_eq_getElem k ' ' hkn2, List.getD_eq_getElem r ' ' hrm] at hab
        rw [hab]
      · rw [if_neg hab] at hs
        have hp : p = acc := (Option.some_inj.1 hs).symm
        subst hp
        exact ⟨by omega, by omega, htake, Or.inr ⟨hkn2, hrm, hab⟩⟩
    · rw [posGet_none r acc (by omega)] at hs
      rw [posGet_eq k acc hkn2] at hs
      simp at hs

lemma scanR_total (k r : Str) (hm : k.length ≤ r.length) :
    ∀ (l : List Nat) (acc : Nat), (∀ j ∈ l, 1 ≤ j ∧ j ≤ k.length - 1) →
      ∃ p, scanR k r l acc = some p := by
  intro l
  induction l with
  | nil => intro acc _; exact ⟨acc, rfl⟩
  | cons i rest ih =>
    intro acc h
    obtain ⟨hi1, hi2⟩ := h i (by simp)
    have hik : i ≤ k.length := by omega
    have hir : i ≤ r.length := by omega
    rw [show scanR k r (i :: rest) acc =
        (match negGet k i, negGet r i with
         | some a, some b => if a = b then scanR k r rest i else some acc
         | _, _ => none) from rfl]
    rw [negGet_eq k i hi1 hik, negGet_eq r i hi1 hir]
    simp only
    by_cases hab : k.getD (k.length - i) ' ' = r.getD (r.length - i) ' '
    · rw [if_pos hab]
      exact ih i (fun j hj => h j (by simp [hj]))
    · rw [if_neg hab]
      exact ⟨acc, rfl⟩

lemma scanL_total (k r : Str) (hm : k.length ≤ r.length) :
    ∀ (l : List Nat) (acc : Nat), (∀ j ∈ l, j < k.length - 1) →
      ∃ p, scanL k r l acc = some p := by
  intro l
  induction l with
  | nil => intro acc _; exact ⟨acc, rfl⟩
  | cons i rest ih =>
    intro acc h
    have hi := h i (by simp)
    have hik : i < k.length := by omega
    have hir : i < r.length := by omega
    rw [show scanL k r (i :: rest) acc =
        (match posGet k i, posGet r i with
         | some a, some b => if a = b then scanL k r rest (i + 1) else some acc
         | _, _ => none) from rfl]
    rw [posGet_eq k i hik, posGet_eq r i hir]
    simp only
    by_cases hab : k.getD i ' ' = r.getD i ' '
    · rw [if_pos hab]
      exact ih (i + 1) (fun j hj => h j (by simp [hj]))
    · rw [if_neg hab]
      exact ⟨acc, rfl⟩

lemma placeR_sound (k r : Str) (p : Nat) (hp : placeR k r = some p) :
    p ≤ k.length - 1 ∧ p ≤ r.length ∧
      k.drop (k.length - p) = r.drop (r.length - p) ∧
      (k.length ≤ p + 1 ∨
        (p + 1 ≤ k.length ∧ p + 1 ≤ r.length ∧
          k.getD (k.length - (p + 1)) ' ' ≠ r.getD (r.length - (p + 1)) ' ')) := by
  refine scanR_sound k r (k.length - 1) 0 p (by omega) (by omega) ?_ hp
  rw [Nat.sub_zero, Nat.sub_zero, List.drop_length, List.drop_length]

lemma placeL_sound (k r : Str) (p : Nat) (hp : placeL k r = some p) :
    p ≤ k.length - 1 ∧ p ≤ r.length ∧ k.take p = r.take p ∧
      (k.length - 1 ≤ p ∨
        (p < k.length ∧ p < r.length ∧ k.getD p ' ' ≠ r.getD p ' ')) := by
  refine scanL_sound k r (k.length - 1) 0 p (by omega) (by omega) rfl hp

lemma placeR_total (k r : Str) (hm : k.length ≤ r.length) : ∃ p, placeR k r = some p := by
  refine scanR_total k r hm _ 0 ?_
  intro j hj
  rw [List.mem_range'_1] at hj
  omega

lemma placeL_total (k r : Str) (hm : k.length ≤ r.length) : ∃ p, placeL k r = some p := by
  refine scanL_total k r hm _ 0 ?_
  intro j hj
  rw [List.mem_range'_1] at hj
  omega

lemma placeR_eq_min (k r : Str) (hm : k.length ≤ r.length) :
    placeR k r = some (min (lcsLen k r) (k.length - 1)) := by
  obtain ⟨p, hp⟩ := placeR_total k r hm
  obtain ⟨h1, h2, h3, h4⟩ := placeR_sound k r p hp
  rw [hp]
  congr 1
  have hge : p ≤ lcsLen k r := (lcsLen_ge_iff k r p).2 ⟨by omega, h2, h3⟩
  rcases h4 with h4 | ⟨h5, h6, h7⟩
  · omega
  · have hlt : ¬ (p + 1 ≤ lcsLen k r) := by
      intro hcon
      rw [lcsLen_ge_iff] at hcon
      obtain ⟨hc1, hc2, hc3⟩ := hcon
      rw [List.drop_eq_getElem_cons (l := k) (by omega),
        List.drop_eq_getElem_cons (l := r) (by omega)] at hc3
      injection hc3 with hc4 _
      refine h7 ?_
      rw [List.getD_eq_getElem k ' ' (by omega), List.getD_eq_getElem r ' ' (by omega)]
      exact hc4
    omega

lemma placeL_eq_min (k r : Str) (hm : k.length ≤ r.length) :
    placeL k r = some (min (lcpLen k r) (k.length - 1)) := by
  obtain ⟨p, hp⟩ := placeL_total k r hm
  obtain ⟨h1, h2, h3, h4⟩ := placeL_sound k r p hp
  rw [hp]
  congr 1
  have hge : p ≤ lcpLen k r := (ccp_ge_iff p k r).2 ⟨by omega, h2, h3⟩
  rcases h4 with h4 | ⟨h5, h6, h7⟩
  · omega
  · have hlt : ¬ (p + 1 ≤ lcpLen k r) := by
      intro hcon
      rw [lcpLen] at hcon
      rw [ccp_ge_iff] at hcon
      obtain ⟨hc1, hc2, hc3⟩ := hcon
      exact h7 (take_eq_imp_getD k r (p + 1) p (by omega) hc3)
    omega

/- ### Lemmas about token processing and the node loop -/

lemma toHiragana_length (s : Str) : (toHiragana s).length = s.length := by
  simp [toHiragana]

lemma processToken_pass1 (toH : Str → Str) (k r : Str) (h : k = r ∨ r = []) :
    processToken toH k r = some k := by
  unfold processToken
  rw [if_pos h]

lemma processToken_pass2 (toH : Str → Str) (k r : Str) (h : k = toH r) :
    processToken toH k r = some k := by
  unfold processToken
  by_cases h1 : k = r ∨ r = []
  · rw [if_pos h1]
  · rw [if_neg h1, if_pos h]

lemma processToken_pass4 (toH : Str → Str) (k r : Str) (h1 : ¬ (k = r ∨ r = []))
    (h2 : k ≠ toH r) (h4 : hasSub k numChars = true) :
    processToken toH k r = some k := by
  unfold processToken
  rw [if_neg h1, if_neg h2, if_neg (fun hc => h2 hc.symm), if_pos h4]

lemma processToken_emit (toH : Str → Str) (k r : Str) (pR pL : Nat)
    (h1 : ¬ (k = r ∨ r = [])) (h2 : k ≠ toH r) (h4 : hasSub k numChars = false)
    (hR : placeR k (toH r) = some pR) (hL : placeL k (toH r) = some pL) :
    processToken toH k r = some (emit k (toH r) pL pR) := by
  unfold processToken
  rw [if_neg h1, if_neg h2, if_neg (fun hc => h2 hc.symm),
    if_neg (by rw [h4]; exact Bool.false_ne_true), hR, hL]

lemma processToken_none (toH : Str → Str) (k r : Str)
    (h1 : ¬ (k = r ∨ r = [])) (h2 : k ≠ toH r) (h4 : hasSub k numChars = false)
    (hRL : placeR k (toH r) = none ∨ placeL k (toH r) = none) :
    processToken toH k r = none := by
  unfold processToken
  rw [if_neg h1, if_neg h2, if_neg (fun hc => h2 hc.symm),
    if_neg (by rw [h4]; exact Bool.false_ne_true)]
  rcases hRL with hR | hL
  · rw [hR]
  · rw [hL]
    cases placeR k (toH r) <;> rfl

lemma processToken_cases (toH : Str → Str) (k r : Str) (e : Str)
    (h : processToken toH k r = some e) :
    e = k ∨ ∃ pR pL, placeR k (toH r) = some pR ∧ placeL k (toH r) = some pL ∧
      e = emit k (toH r) pL pR := by
  unfold processToken at h
  split_ifs at h with h1 h2 h3 h4
  · exact Or.inl (Option.some_inj.1 h).symm
  · exact Or.inl (Option.some_inj.1 h).symm
  · exact Or.inl (Option.some_inj.1 h).symm
  · exact Or.inl (Option.some_inj.1 h).symm
  · cases hR : placeR k (toH r) with
    | none => rw [hR] at h; cases h
    | some pR =>
      cases hL : placeL k (toH r) with
      | none => rw [hR, hL] at h; cases h
      | some pL =>
        rw [hR, hL] at h
        exact Or.inr ⟨pR, pL, rfl, rfl, (Option.some_inj.1 h).symm⟩

lemma buildEntries_total (toH : Str → Str) :
    ∀ ts : List (Str × Str), (∀ p ∈ ts, ∃ e, processToken toH p.1 p.2 = some e) →
      ∃ out, buildEntries toH ts = some out := by
  intro ts
  induction ts with
  | nil => intro _; exact ⟨[], rfl⟩
  | cons t ts ih =>
    intro h
    obtain ⟨e, he⟩ := h t (by simp)
    obtain ⟨out, hout⟩ := ih (fun p hp => h p (by simp [hp]))
    exact ⟨e :: out, by simp [buildEntries, he, hout]⟩

lemma buildEntries_mem (toH : Str → Str) :
    ∀ (ts : List (Str × Str)) (out : List Str), buildEntries toH ts = some out →
      ∀ p ∈ ts, ∃ e ∈ out, processToken toH p.1 p.2 = some e := by
  intro ts
  induction ts with
  | nil => intro out _ p hp; simp at hp
  | cons t ts ih =>
    intro out hout p hp
    unfold buildEntries at hout
    cases he : processToken toH t.1 t.2 with
    | none => rw [he] at hout; cases hout
    | some e =>
      rw [he] at hout
      cases hes : buildEntries toH ts with
      | none => rw [hes] at hout; cases hout
      | some es =>
        rw [hes] at hout
        have : out = e :: es := (Option.some_inj.1 hout).symm
        subst this
        rcases List.mem_cons.1 hp with rfl | hp2
        · exact ⟨e, by simp, he⟩
        · obtain ⟨e2, he2, hpe2⟩ := ih es hes p hp2
          exact ⟨e2, by simp [he2], hpe2⟩

lemma buildEntries_of_eq (toH : Str → Str) :
    ∀ ts : List (Str × Str), (∀ p ∈ ts, p.1 = p.2) →
      buildEntries toH ts = some (ts.map Prod.fst) := by
  intro ts
  induction ts with
  | nil => intro _; rfl
  | cons t ts ih =>
    intro h
    have h1 : processToken toH t.1 t.2 = some t.1 :=
      processToken_pass1 toH t.1 t.2 (Or.inl (h t (by simp)))
    have h2 := ih (fun p hp => h p (by simp [hp]))
    simp [buildEntries, h1, h2]

lemma buildOut_break (toH : Str → Str) :
    ∀ ns rest : List Str, ([] : Str) ∉ ns →
      buildOut toH (ns ++ ([] : Str) :: rest) = buildOut toH ns := by
  intro ns
  induction ns with
  | nil => intro rest _; rfl
  | cons n ns ih =>
    intro rest h
    have hn : n ≠ [] := fun hc => h (by simp [hc])
    have hns : ([] : Str) ∉ ns := fun hc => h (by simp [hc])
    rw [List.cons_append]
    show buildOut toH (n :: (ns ++ [] :: rest)) = buildOut toH (n :: ns)
    simp only [buildOut]
    rw [if_neg hn, if_neg hn]
    cases hpn : parseNode n with
    | none => rfl
    | some kr =>
      show (match processToken toH kr.1 kr.2 with
            | none => none
            | some e =>
              match buildOut toH (ns ++ [] :: rest) with
              | none => none
              | some none => some none
              | some (some es) => some (some (e :: es))) =
          (match processToken toH kr.1 kr.2 with
            | none => none
            | some e =>
              match buildOut toH ns with
              | none => none
              | some none => some none
              | some (some es) => some (some (e :: es)))
      rw [ih rest hns]

lemma buildOut_badnode (toH : Str → Str) :
    ∀ ns : List Str, ([] : Str) ∉ ns →
      (∀ n ∈ ns, ∃ kr e, parseNode n = some kr ∧ processToken toH kr.1 kr.2 = some e) →
      ∀ bad rest, bad ≠ [] → parseNode bad = none →
        buildOut toH (ns ++ bad :: rest) = some none := by
  intro ns
  induction ns with
  | nil =>
    intro _ _ bad rest hbne hbad
    show buildOut toH (bad :: rest) = some none
    simp only [buildOut]
    rw [if_neg hbne, hbad]
  | cons n ns ih =>
    intro h hall bad rest hbne hbad
    have hn : n ≠ [] := fun hc => h (by simp [hc])
    have hns : ([] : Str) ∉ ns := fun hc => h (by simp [hc])
    obtain ⟨kr, e, hkr, he⟩ := hall n (by simp)
    rw [List.cons_append]
    show buildOut toH (n :: (ns ++ bad :: rest)) = some none
    simp only [buildOut]
    rw [if_neg hn, hkr]
    show (match processToken toH kr.1 kr.2 with
          | none => none
          | some e =>
            match buildOut toH (ns ++ bad :: rest) with
            | none => none
            | some none => some none
            | some (some es) => some (some (e :: es))) = some none
    rw [he, ih hns (fun n2 hn2 => hall n2 (by simp [hn2])) bad rest hbne hbad]

/- ### Claim theorems -/

/-- Claim C10: the node loop stops at the first empty node (such as one
produced by two consecutive space separators) and silently discards all
subsequent nodes: the result equals that of processing only the prefix of
nodes before the first empty one. -/
theorem C10_break_on_empty (ns rest : List Str) (h : ([] : Str) ∉ ns) :
    alignNodes toHiragana (ns ++ ([] : Str) :: rest) = alignNodes toHiragana ns := by
  unfold alignNodes
  rw [buildOut_break toHiragana ns rest h]

theorem C10_break_on_empty_wit :
    alignNodes toHiragana [("a[]").data, [], ("b[]").data] =
      alignNodes toHiragana [("a[]").data] :=
  C10_break_on_empty [("a[]").data] [("b[]").data] (by decide)

/-- Claim C1 counterexample: on the node list ["千葉[ちば]", "x"], where "x"
fails to parse into the surface[reading] shape, the aligner returns the empty
string: the already-aligned first token is discarded and the raw surface "x"
is not emitted, refuting "emits the raw surface for that token only and
continues". -/
theorem C1_abort_cex :
    alignNodes toHiragana [("千葉[ちば]").data, ("x").data] = some [] ∧
      hasSub (("x").data) [] = false :=
  ⟨by decide, by decide⟩

/-- Claim C1 amended: when a node fails to parse into the surface[reading]
shape, the aligner logs the anomaly and returns the empty string, discarding
the output of every token: it aborts the whole alignment instead of emitting
the raw surface of the offending token and continuing. -/
theorem C1_malformed_aborts (ns : List Str) (bad : Str) (rest : List Str)
    (h1 : ([] : Str) ∉ ns)
    (h2 : ∀ n ∈ ns, ∃ kr e, parseNode n = some kr ∧
      processToken toHiragana kr.1 kr.2 = some e)
    (h3 : bad ≠ []) (h4 : parseNode bad = none) :
    alignNodes toHiragana (ns ++ bad :: rest) = some [] := by
  unfold alignNodes
  rw [buildOut_badnode toHiragana ns h1 h2 bad rest h3 h4]

theorem C1_malformed_aborts_wit :
    alignNodes toHiragana [("千葉[ちば]").data, ("xy").data, ("a[]").data] = some [] :=
  C1_malformed_aborts [("千葉[ちば]").data] (("xy").data) [("a[]").data] (by decide)
    (by
      intro n hn
      rw [List.mem_singleton] at hn
      subst hn
      exact ⟨((("千葉").data), (("ちば").data)), (" 千葉[ちば]").data, by decide, by decide⟩)
    (by decide) (by decide)

/-- Claim C2 counterexample: the token ("ああい", "あ"), whose nonempty reading
is shorter than its surface, is not treated as a passthrough: the prefix scan
runs past the end of the reading and raises an IndexError (modelled `none`),
so align does not always return a string. -/
theorem C2_raises_cex : align [(("ああい").data, ("あ").data)] = none := by decide

/-- Claim C2 amended: align returns a string whenever every token has its
reading empty, equal to the surface, or at least as long as the surface; a
nonempty shorter reading that shares a long enough common prefix or suffix
with the surface instead raises an IndexError inside the trimming scans. -/
theorem C2_total_when_readings_long (ts : List (Str × Str))
    (h : ∀ p ∈ ts, p.1 = p.2 ∨ p.2 = [] ∨ p.1.length ≤ p.2.length) :
    ∃ s, align ts = some s := by
  have htot : ∀ p ∈ ts, ∃ e, processToken toHiragana p.1 p.2 = some e := by
    intro p hp
    by_cases hc1 : p.1 = p.2 ∨ p.2 = []
    · exact ⟨p.1, processToken_pass1 _ _ _ hc1⟩
    by_cases hc2 : p.1 = toHiragana p.2
    · exact ⟨p.1, processToken_pass2 _ _ _ hc2⟩
    by_cases hc4 : hasSub p.1 numChars
    · exact ⟨p.1, processToken_pass4 _ _ _ hc1 hc2 hc4⟩
    · have h1 : p.1.length ≤ p.2.length := by
        rcases h p hp with h1 | h1 | h1
        · exact absurd (Or.inl h1) hc1
        · exact absurd (Or.inr h1) hc1
        · exact h1
      have hlen : p.1.length ≤ (toHiragana p.2).length := by
        rw [toHiragana_length]; exact h1
      obtain ⟨pR, hR⟩ := placeR_total p.1 (toHiragana p.2) hlen
      obtain ⟨pL, hL⟩ := placeL_total p.1 (toHiragana p.2) hlen
      exact ⟨_, processToken_emit toHiragana p.1 p.2 pR pL hc1 hc2
        (by simp only [Bool.not_eq_true] at hc4; exact hc4) hR hL⟩
  obtain ⟨out, hout⟩ := buildEntries_total toHiragana ts htot
  exact ⟨finish out, by unfold align; rw [hout]⟩

theorem C2_total_when_readings_long_wit :
    ∃ s, align [(("買った").data, ("かった").data), (("です").data, ("です").data)] =
      some s :=
  C2_total_when_readings_long _ (by decide)

/-- Claim C3 counterexample: the numeral exception is a Python substring test
against "一二三四五六七八九十０１２３４５６７８９"; 二千三百六十 contains 千
and 百, which are not in that string, so the claimed token is bracketed as
二千三百六十[にせんさんびゃくろくじゅう] instead of passing through. -/
theorem C3_numeral_cex :
    align [(("二千三百六十").data, ("にせんさんびゃくろくじゅう").data)] =
      some (("二千三百六十[にせんさんびゃくろくじゅう]").data) ∧
      ('[') ∈ (("二千三百六十[にせんさんびゃくろくじゅう]").data) :=
  ⟨by decide, by decide⟩

/-- Claim C3 amended: a token that reaches the numeral branch passes through
unannotated precisely when its surface is a contiguous substring of
"一二三四五六七八九十０１２３４５６７８９" (Python's `in`); ASCII digits are
not in that string, and a surface such as 二千三百六十 is not a contiguous
substring of it, so it is bracketed even though a reading is present. -/
theorem C3_numeral_substring (k r : Str) (h1 : ¬ (k = r ∨ r = []))
    (h2 : k ≠ toHiragana r) (h4 : hasSub k numChars = true) :
    processToken toHiragana k r = some k :=
  processToken_pass4 toHiragana k r h1 h2 h4

theorem C3_numeral_substring_wit :
    processToken toHiragana (("二三").data) (("にさん").data) = some (("二三").data) :=
  C3_numeral_substring _ _ (by decide) (by decide) (by decide)

/-- Claim C5 counterexample: for the token list [("あ","あ"), ("ab","ab")],
in which every surface equals its reading, align returns "あ ab" — the
spacing pass inserts a space before the Latin run — not the plain
concatenation "あab". -/
theorem C5_spacing_cex :
    align [(("あ").data, ("あ").data), (("ab").data, ("ab").data)] =
      some (("あ ab").data) ∧ ("あ ab").data ≠ ("あab").data :=
  ⟨by decide, by decide⟩

/-- Claim C5 amended: on a token list where every surface equals its reading,
align returns the concatenation of the surfaces unchanged, provided no
surface after the first one is a nonempty Latin/digit-only run (those trigger
the spacing pass) and no surface contains whitespace (which the final strip
could remove at the ends). -/
theorem C5_concat (ts : List (Str × Str))
    (h1 : ∀ p ∈ ts, p.1 = p.2)
    (h2 : ∀ p ∈ ts.tail, fullAlnum p.1 = false)
    (h3 : ∀ p ∈ ts, ∀ c ∈ p.1, pyIsSpace c = false) :
    align ts = some ((ts.map Prod.fst).flatten) := by
  have hws : ∀ c ∈ (ts.map Prod.fst).flatten, pyIsSpace c = false := by
    intro c hc
    rw [List.mem_flatten] at hc
    obtain ⟨l, hl, hcl⟩ := hc
    rw [List.mem_map] at hl
    obtain ⟨p, hp, rfl⟩ := hl
    exact h3 p hp c hcl
  have htail : ∀ e ∈ (ts.map Prod.fst).tail, fullAlnum e = false := by
    intro e he
    rw [← List.map_tail] at he
    rw [List.mem_map] at he
    obtain ⟨p, hp, rfl⟩ := he
    exact h2 p hp
  unfold align
  rw [buildEntries_of_eq toHiragana ts h1]
  show some (finish (ts.map Prod.fst)) = some ((ts.map Prod.fst).flatten)
  unfold finish
  rw [spacePass_join _ htail, pyStrip_of_no_ws _ hws,
    collapseBr_of_not_sub _ (no_space_no_brPat _ hws)]

theorem C5_concat_wit :
    align [(("わたし").data, ("わたし").data), (("です").data, ("です").data)] =
      some (("わたしです").data) :=
  C5_concat _ (by decide) (by decide) (by decide)

/-- Claim C9 counterexample: for the token ("カリン", "かりん") the
hiragana-normalized surface equals the hiragana-normalized reading, yet align
emits the bracketed カリン[かりん] rather than the bare surface: the code
compares the raw surface against the normalized reading, not the two
normalized forms. -/
theorem C9_katakana_cex :
    toHiragana (("カリン").data) = toHiragana (("かりん").data) ∧
      align [(("カリン").data, ("かりん").data)] = some (("カリン[かりん]").data) :=
  ⟨by decide, by decide⟩

/-- Claim C9 amended: the kana passthrough fires when the surface itself
equals the hiragana-normalized reading (or equals the raw reading, or the
reading is empty); a katakana surface whose own normalization merely matches
the reading's normalization is still bracketed. -/
theorem C9_pass_on_normalized (k r : Str)
    (h : k = r ∨ r = [] ∨ k = toHiragana r) :
    processToken toHiragana k r = some k := by
  rcases h with h | h | h
  · exact processToken_pass1 _ _ _ (Or.inl h)
  · exact processToken_pass1 _ _ _ (Or.inr h)
  · exact processToken_pass2 _ _ _ h

theorem C9_pass_on_normalized_wit :
    processToken toHiragana (("かりん").data) (("カリン").data) =
      some (("かりん").data) :=
  C9_pass_on_normalized _ _ (by decide)

/-- Claim C6: for an annotated token whose reading is at least as long as its
surface, the suffix scan yields the longest common suffix of the pair capped
at len(surface) - 1, the prefix scan the longest common prefix capped the
same way; both are independent scans of the same original pair, and neither
capped length can consume the entire surface. -/
theorem C6_trim_lengths (k r : Str) (hm : k.length ≤ r.length) :
    placeR k r = some (min (lcsLen k r) (k.length - 1)) ∧
    placeL k r = some (min (lcpLen k r) (k.length - 1)) ∧
    (1 ≤ k.length → min (lcsLen k r) (k.length - 1) < k.length ∧
      min (lcpLen k r) (k.length - 1) < k.length) :=
  ⟨placeR_eq_min k r hm, placeL_eq_min k r hm, fun h => ⟨by omega, by omega⟩⟩

theorem C6_trim_lengths_wit :
    placeR (("買った").data) (("かった").data) =
      some (min (lcsLen (("買った").data) (("かった").data))
        ((("買った").data).length - 1)) ∧
    placeL (("買った").data) (("かった").data) =
      some (min (lcpLen (("買った").data) (("かった").data))
        ((("買った").data).length - 1)) ∧
    (1 ≤ (("買った").data).length →
      min (lcsLen (("買った").data) (("かった").data))
        ((("買った").data).length - 1) < (("買った").data).length ∧
      min (lcpLen (("買った").data) (("かった").data))
        ((("買った").data).length - 1) < (("買った").data).length) :=
  C6_trim_lengths (("買った").data) (("かった").data) (by decide)

/-- Claim C7: for an annotated token with prefix trim 0 and suffix trim
pR > 0, the emitted segment is (one space then) kanjiPart[readingPart]
followed by the matching suffix kana outside the brackets, where kanjiPart
and readingPart drop the last pR characters of the surface and of the
normalized reading, and the emitted suffix kana equal the surface's own
trailing pR characters; in particular align on the single token
("買った", "かった") returns 買[か]った. -/
theorem C7_suffix_trim :
    (∀ (k r : Str) (pR : Nat), ¬ (k = r ∨ r = []) → k ≠ toHiragana r →
      hasSub k numChars = false →
      placeL k (toHiragana r) = some 0 → placeR k (toHiragana r) = some pR →
      0 < pR →
      processToken toHiragana k r =
        some (' ' :: (k.take (k.length - pR) ++
          '[' :: ((toHiragana r).take ((toHiragana r).length - pR) ++
            ']' :: (toHiragana r).drop ((toHiragana r).length - pR)))) ∧
        (toHiragana r).drop ((toHiragana r).length - pR) =
          k.drop (k.length - pR)) ∧
    align [(("買った").data, ("かった").data)] = some (("買[か]った").data) := by
  constructor
  · intro k r pR h1 h2 h4 hL hR hpos
    constructor
    · rw [processToken_emit toHiragana k r pR 0 h1 h2 h4 hR hL]
      unfold emit
      rw [if_pos rfl, if_neg (by omega)]
    · exact (placeR_sound k (toHiragana r) pR hR).2.2.1.symm
  · decide

theorem C7_suffix_trim_wit :
    processToken toHiragana (("買った").data) (("かった").data) =
      some (' ' :: ((("買った").data).take ((("買った").data).length - 2) ++
        '[' :: ((toHiragana (("かった").data)).take
            ((toHiragana (("かった").data)).length - 2) ++
          ']' :: (toHiragana (("かった").data)).drop
            ((toHiragana (("かった").data)).length - 2)))) ∧
      (toHiragana (("かった").data)).drop
          ((toHiragana (("かった").data)).length - 2) =
        (("買った").data).drop ((("買った").data).length - 2) :=
  C7_suffix_trim.1 (("買った").data) (("かった").data) 2 (by decide) (by decide)
    (by decide) (by decide) (by decide) (by decide)

/- ### Character preservation through the emission branches -/

lemma mem_take_of_lt (l : Str) (t i : Nat) (hi : i < l.length) (hit : i < t) :
    l[i] ∈ l.take t := by
  have hlen : i < (l.take t).length := by
    rw [List.length_take]
    omega
  rw [← @List.getElem_take _ l t i hlen]
  exact List.getElem_mem hlen

lemma mem_drop_of_ge (l : Str) (t i : Nat) (hi : i < l.length) (hit : t ≤ i) :
    l[i] ∈ l.drop t := by
  refine List.mem_iff_getElem.2 ⟨i - t, ?_, ?_⟩
  · rw [List.length_drop]; omega
  · rw [@List.getElem_drop _ l t (i - t) (by rw [List.length_drop]; omega)]
    congr 1
    omega

lemma emit_mem (k rr : Str) (pR pL : Nat)
    (hR : placeR k rr = some pR) (hL : placeL k rr = some pL) :
    ∀ c ∈ k, c ∈ emit k rr pL pR := by
  intro c hc
  obtain ⟨r1, r2, r3, _⟩ := placeR_sound k rr pR hR
  obtain ⟨l1, l2, l3, _⟩ := placeL_sound k rr pL hL
  obtain ⟨i, hi, rfl⟩ := List.mem_iff_getElem.1 hc
  unfold emit
  by_cases hpL : pL = 0
  · rw [if_pos hpL]
    by_cases hpR : pR = 0
    · rw [if_pos hpR]
      exact List.mem_cons_of_mem _ (List.mem_append_left _ (List.getElem_mem hi))
    · rw [if_neg hpR]
      by_cases hiR : i < k.length - pR
      · exact List.mem_cons_of_mem _ (List.mem_append_left _ (mem_take_of_lt k _ i hi hiR))
      · have hmem : k[i] ∈ rr.drop (rr.length - pR) := by
          rw [← r3]
          exact mem_drop_of_ge k _ i hi (by omega)
        exact List.mem_cons_of_mem _ (List.mem_append_right _
          (List.mem_cons_of_mem _ (List.mem_append_right _ (List.mem_cons_of_mem _ hmem))))
  · rw [if_neg hpL]
    by_cases hpR : pR = 0
    · rw [if_pos hpR]
      by_cases hiL : i < pL
      · have hmem : k[i] ∈ rr.take pL := by
          rw [← l3]
          exact mem_take_of_lt k pL i hi hiL
        exact List.mem_append_left _ hmem
      · exact List.mem_append_right _ (List.mem_cons_of_mem _
          (List.mem_append_left _ (mem_drop_of_ge k pL i hi (by omega))))
    · rw [if_neg hpR]
      by_cases hiL : i < pL
      · have hmem : k[i] ∈ rr.take pL := by
          rw [← l3]
          exact mem_take_of_lt k pL i hi hiL
        exact List.mem_append_left _ hmem
      · by_cases hiR : k.length - pR ≤ i
        · have hmem : k[i] ∈ rr.drop (rr.length - pR) := by
            rw [← r3]
            exact mem_drop_of_ge k _ i hi hiR
          exact List.mem_append_right _ (List.mem_cons_of_mem _ (List.mem_append_right _
            (List.mem_cons_of_mem _ (List.mem_append_right _ (List.mem_cons_of_mem _ hmem)))))
        · have hmem : k[i] ∈ (k.take (k.length - pR)).drop pL := by
            refine List.mem_iff_getElem.2 ⟨i - pL, ?_, ?_⟩
            · rw [List.length_drop, List.length_take]
              omega
            · rw [@List.getElem_drop _ (k.take (k.length - pR)) pL (i - pL)
                (by rw [List.length_drop, List.length_take]; omega)]
              rw [@List.getElem_take _ k (k.length - pR) (pL + (i - pL))
                (by rw [List.length_take]; omega)]
              congr 1
              omega
          exact List.mem_append_right _ (List.mem_cons_of_mem _
            (List.mem_append_left _ hmem))

lemma processToken_mem (toH : Str → Str) (k r e : Str)
    (h : processToken toH k r = some e) : ∀ c ∈ k, c ∈ e := by
  rcases processToken_cases toH k r e h with rfl | ⟨pR, pL, hR, hL, rfl⟩
  · exact fun c hc => hc
  · exact emit_mem k (toH r) pR pL hR hL

/-- Claim C4 counterexample: the over-trimmed token ("ああああ", "あああああ")
yields あああ []あああ, which contains the empty bracket pair []; and the
kana-only token ("あ ", "あ ") with a trailing space loses that surface
character to the final strip. -/
theorem C4_cex :
    align [(("ああああ").data, ("あああああ").data)] =
      some (("あああ []あああ").data) ∧
    hasSub (("[]").data) (("あああ []あああ").data) = true ∧
    align [(("あ ").data, ("あ ").data)] = some (("あ").data) :=
  ⟨by decide, by decide, by decide⟩

/-- Claim C4 amended: whenever align returns a string and no surface contains
whitespace, every character of every surface appears somewhere in the output;
the output can nevertheless contain an empty bracket pair [] (produced by
over-trimming), and a surface whitespace character at the ends of the result
would be removed by the final strip. -/
theorem C4_chars (ts : List (Str × Str)) (res : Str)
    (hws : ∀ p ∈ ts, ∀ c ∈ p.1, pyIsSpace c = false)
    (h : align ts = some res) :
    ∀ p ∈ ts, ∀ c ∈ p.1, c ∈ res := by
  intro p hp c hc
  have hcw : pyIsSpace c = false := hws p hp c hc
  unfold align at h
  cases hout : buildEntries toHiragana ts with
  | none => rw [hout] at h; cases h
  | some out =>
    rw [hout] at h
    have hres : res = finish out := (Option.some_inj.1 h).symm
    subst hres
    obtain ⟨e, hemem, he⟩ := buildEntries_mem toHiragana ts out hout p hp
    have hce : c ∈ e := processToken_mem toHiragana p.1 p.2 e he c hc
    have h1 : c ∈ spacePass out := mem_spacePass out e hemem c hce
    have h2 : c ∈ pyStrip (spacePass out) := mem_pyStrip hcw h1
    have hcs : c ≠ ' ' := by
      intro hceq
      subst hceq
      simp [pyIsSpace, wsCodes] at hcw
    exact mem_collapseBr hcs _ h2

theorem C4_chars_wit : '買' ∈ (("買[か]った").data) :=
  C4_chars [(("買った").data, ("かった").data)] (("買[か]った").data) (by decide)
    (by decide) ((("買った").data, ("かった").data)) (by decide) '買' (by decide)

/-- Claim C8 counterexample: the kana-free tokens "<", "br", ">" (each its own
reading) produce the output <br>: the spacing pass does insert a space
between the plain run "<" and the Latin run "br", but the final cleanup
collapses "< br>" back to "<br>", so no space separates the two runs in the
output. -/
theorem C8_br_cex :
    align [(("<").data, ("<").data), (("br").data, ("br").data),
      ((">").data, (">").data)] = some (("<br>").data) ∧
      ' ' ∉ (("<br>").data) :=
  ⟨by decide, by decide⟩

/-- Claim C8 amended: when an emitted entry is a nonempty, whitespace-free,
plain (bracket-free) run and the entry after it is a nonempty Latin/digit
run, exactly one space separates the two runs in the output — the space
inserted by the spacing pass, flanked by whitespace-free runs — provided the
final cleanup does not fire (no "< br>" occurrence in the stripped string);
that cleanup can otherwise delete the separating space. -/
theorem C8_one_space (ts : List (Str × Str)) (l1 : List Str) (x y : Str)
    (l2 : List Str)
    (hout : buildEntries toHiragana ts = some (l1 ++ x :: y :: l2))
    (hxne : x ≠ []) (hxws : ∀ c ∈ x, pyIsSpace c = false) (hxpl : '[' ∉ x)
    (hy : fullAlnum y = true)
    (hnobr : hasSub brPat (pyStrip (spacePass (l1 ++ x :: y :: l2))) = false) :
    ∃ A B, align ts = some (A ++ ((x ++ ' ' :: y) ++ B)) ∧
      (∀ c ∈ x, pyIsSpace c = false) ∧ (∀ c ∈ y, pyIsSpace c = false) := by
  have hy2 := hy
  unfold fullAlnum at hy2
  rw [Bool.and_eq_true] at hy2
  have hyne : y ≠ [] := by
    intro hceq
    subst hceq
    simp at hy2
  have hyws : ∀ c ∈ y, pyIsSpace c = false := by
    intro c hcy
    refine isAlnum_not_space ?_
    have h3 := hy2.2
    rw [List.all_eq_true] at h3
    exact h3 c hcy
  obtain ⟨A0, hA0⟩ := spacePass_split x (y :: l2) l1
  obtain ⟨B0, hB0⟩ := spacePass_head y l2
  have hsp : spacePass (l1 ++ x :: y :: l2) = A0 ++ ((x ++ ' ' :: y) ++ B0) := by
    rw [hA0, spacePass_cons x y l2, if_pos hy, hB0]
    simp [List.append_assoc]
  have hmid_head : (x ++ ' ' :: y).head? = some (x.head hxne) := by
    rw [List.head?_append, List.head?_eq_head hxne]
    rfl
  have hmid_last : (x ++ ' ' :: y).getLast? = some (y.getLast hyne) := by
    have hshape : x ++ ' ' :: y = (x ++ [' ']) ++ y := by
      simp [List.append_assoc]
    rw [hshape, List.getLast?_append, List.getLast?_eq_getLast _ hyne]
    rfl
  obtain ⟨A1, B1, hstrip⟩ := strip_mid A0 (x ++ ' ' :: y) B0 (x.head hxne)
    (y.getLast hyne) hmid_head (hxws _ (List.head_mem hxne)) hmid_last
    (hyws _ (List.getLast_mem hyne))
  have hcid : collapseBr (pyStrip (spacePass (l1 ++ x :: y :: l2))) =
      pyStrip (spacePass (l1 ++ x :: y :: l2)) := collapseBr_of_not_sub _ hnobr
  refine ⟨A1, B1, ?_, hxws, hyws⟩
  unfold align
  rw [hout]
  show some (finish (l1 ++ x :: y :: l2)) = _
  unfold finish
  rw [hcid, hsp, hstrip]

theorem C8_one_space_wit :
    ∃ A B, align [(("あ").data, ("あ").data), (("ab").data, ("ab").data)] =
      some (A ++ (((("あ").data) ++ ' ' :: (("ab").data)) ++ B)) ∧
      (∀ c ∈ (("あ").data), pyIsSpace c = false) ∧
      (∀ c ∈ (("ab").data), pyIsSpace c = false) :=
  C8_one_space _ [] (("あ").data) (("ab").data) [] (by decide) (by decide)
    (by decide) (by decide) (by decide) (by decide)

end KaitoReading
